import Mathlib

/-!
Verification of the Symphonic Prompting retrieval pipeline.

The definitions below are shallow embeddings of the repository's code:
the paragraph-windowing chunker (`app/chunking.py`), the retrieval
entrypoint with its artifact store, candidate generator and optional
reranker (`app/search.py`), and the HTTP request validation layer
(`app/api/server.py`).  Python ints are modelled as `Int` (or `Nat` for
values that are provably non-negative counters), the `overlap_ratio`
float as an exact rational, and similarity scores as rationals.
-/

namespace Ragnarok

/-- A page record consumed by `_explode_paragraphs` in `app/chunking.py`:
one JSONL line `{page, text}` produced by ingestion. -/
structure PageRec where
  page : Int
  text : String
deriving DecidableEq

/-- The `Paragraph` dataclass of `app/chunking.py`: a blank-line-delimited
block with global character offsets. -/
structure Paragraph where
  page : Int
  text : String
  start : Int
  «end» : Int
deriving DecidableEq

/-- The `Chunk` dataclass of `app/chunking.py` (`to_jsonl` fields). -/
structure Chunk where
  id : String
  text : String
  page_start : Int
  page_end : Int
  start_char : Int
  end_char : Int
deriving DecidableEq

/-- The default used for (unreachable) out-of-bounds list reads. -/
def defaultPara : Paragraph := ⟨0, "", 0, 0⟩

/-- Python `str.isspace` on the ASCII whitespace characters stripped by
`str.strip()`. -/
def pySpace (c : Char) : Bool :=
  c == ' ' || c == '\t' || c == '\n' || c == '\r' || c == '\x0b' || c == '\x0c'

/-- Python `str.strip()` (no argument): drop leading and trailing
whitespace. -/
def pyStrip (s : String) : String :=
  String.mk (((s.data.dropWhile pySpace).reverse.dropWhile pySpace).reverse)

/-- Python `text.split("\n\n")`: split at each non-overlapping occurrence of
the two-character separator, scanning left to right. -/
def splitSep : List Char → List (List Char)
  | [] => [[]]
  | '\n' :: '\n' :: rest => [] :: splitSep rest
  | c :: rest =>
      match splitSep rest with
      | [] => [[c]]
      | t :: ts => (c :: t) :: ts

/-- `parts = [part.strip() for part in text.split("\n\n") if part.strip()]`
from `_explode_paragraphs`. -/
def splitParts (text : String) : List String :=
  ((splitSep text.data).map (fun cs => pyStrip (String.mk cs))).filter (fun p => p != "")

/-- The inner loop of `_explode_paragraphs` over one page's parts: each part
becomes a paragraph at `[cursor, cursor + len(part))`; the cursor advances by
the part's length, plus the 2-character separator between consecutive parts
(not after the last).  Returns the paragraphs and the final cursor. -/
def explodeParts (page : Int) (cursor : Nat) : List String → List Paragraph × Nat
  | [] => ([], cursor)
  | [part] => ([⟨page, part, (cursor : Int), ((cursor + part.length : Nat) : Int)⟩],
      cursor + part.length)
  | part :: rest =>
      let e := cursor + part.length
      let r := explodeParts page (e + 2) rest
      (⟨page, part, (cursor : Int), (e : Int)⟩ :: r.1, r.2)

/-- `_explode_paragraphs` (`app/chunking.py` lines 69-96), as a walk over the
remaining pages: a blank page advances the cursor by the inter-page separator
width 2 unless it is the last page; a non-blank page contributes its parts and
then the inter-page separator unless it is the last page. -/
def explodePagesFrom (cursor : Nat) : List PageRec → List Paragraph
  | [] => []
  | [r] =>
      if pyStrip r.text = "" then []
      else (explodeParts r.page cursor (splitParts r.text)).1
  | r :: rest =>
      if pyStrip r.text = "" then explodePagesFrom (cursor + 2) rest
      else
        let pr := explodeParts r.page cursor (splitParts r.text)
        pr.1 ++ explodePagesFrom (pr.2 + 2) rest

/-- `_explode_paragraphs(pages)`: the full paragraph sequence, cursor 0. -/
def explodeParagraphs (pages : List PageRec) : List Paragraph :=
  explodePagesFrom 0 pages

/-- `(2 if current else 0)`: the separator part of an addition's cost in
`_collect_window`. -/
def sepCost (current : List Paragraph) : Nat :=
  if current.isEmpty then 0 else 2

/-- The `while` loop of `_collect_window` (`app/chunking.py` lines 109-119),
walking the suffix of the paragraph list that starts at the window's start
index.  Returns `(current, char_count, consumed)` where `consumed` is how many
paragraphs of the suffix were taken (so the source's `idx` is
`start_idx + consumed`). -/
def collectLoop (target min_chars : Int) (current : List Paragraph) (charCount : Nat) :
    List Paragraph → List Paragraph × Nat × Nat
  | [] => (current, charCount, 0)
  | para :: rest =>
      let addition := para.text.length + sepCost current
      let anticipated := charCount + addition
      if ¬ current.isEmpty ∧ (anticipated : Int) > target ∧ (charCount : Int) ≥ min_chars then
        (current, charCount, 0)
      else
        if (anticipated : Int) ≥ target then (current ++ [para], anticipated, 1)
        else
          let r := collectLoop target min_chars (current ++ [para]) anticipated rest
          (r.1, r.2.1, r.2.2 + 1)

/-- `_collect_window` (`app/chunking.py` lines 99-126).  Returns
`(window, char_count, next_idx)`.  The `if not current` fallback (lines
121-124) is only reachable when `start_idx` is out of bounds, where the Python
code would fault on `paragraphs[start_idx]`; it is modelled with a default. -/
def collectWindow (paragraphs : List Paragraph) (startIdx : Nat) (target min_chars : Int) :
    List Paragraph × Nat × Nat :=
  let r := collectLoop target min_chars [] 0 (paragraphs.drop startIdx)
  if r.1.isEmpty then
    let p := paragraphs.getD startIdx defaultPara
    ([p], p.text.length, min (startIdx + 1) paragraphs.length)
  else (r.1, r.2.1, startIdx + r.2.2)

/-- The forward walk of `_advance_start` (lines 142-144): how many consecutive
paragraphs (from `start_idx`, staying below `end_idx`) still have
`end <= overlap_limit`. -/
def walkCount (overlapLimit : Int) : List Paragraph → Nat
  | [] => 0
  | p :: rest => if p.«end» ≤ overlapLimit then walkCount overlapLimit rest + 1 else 0

/-- `_advance_start` (`app/chunking.py` lines 129-145).  The float
`overlap_ratio` is modelled as an exact rational and
`int(char_count * overlap_ratio)` as the floor: the two agree on the
non-negative products that occur, and a negative product lands in the same
`<= 0` early-return branch either way. -/
def advanceStart (paragraphs : List Paragraph) (startIdx endIdx : Nat) (charCount : Nat)
    (overlap_ratio : ℚ) : Nat :=
  if endIdx ≥ paragraphs.length then endIdx
  else
    let overlapChars : Int := ⌊(charCount : ℚ) * overlap_ratio⌋
    if overlapChars ≤ 0 then endIdx
    else
      let overlapLimit : Int := (paragraphs.getD (endIdx - 1) defaultPara).«end» - overlapChars
      let nextStart := startIdx +
        walkCount overlapLimit ((paragraphs.drop startIdx).take (endIdx - startIdx))
      if nextStart > startIdx then nextStart else endIdx

/-- Python `"\n\n".join(texts)` from `_yield_chunks`. -/
def joinParas : List String → String
  | [] => ""
  | [t] => t
  | t :: rest => t ++ "\n\n" ++ joinParas rest

/-- `f"sym-{chunk_index:06d}"`: zero-padded to at least six digits. -/
def chunkId (i : Nat) : String :=
  let s := toString i
  "sym-" ++ String.mk (List.replicate (6 - s.length) '0') ++ s

theorem walkCount_le (lim : Int) : ∀ xs : List Paragraph, walkCount lim xs ≤ xs.length
  | [] => Nat.le_refl 0
  | p :: rest => by
      simp only [walkCount]
      split
      · exact Nat.succ_le_succ (walkCount_le lim rest)
      · exact Nat.zero_le _

theorem collectLoop_count_le (t m : Int) :
    ∀ (xs : List Paragraph) (cur : List Paragraph) (cc : Nat),
      (collectLoop t m cur cc xs).2.2 ≤ xs.length := by
  intro xs
  induction xs with
  | nil => intro cur cc; simp [collectLoop]
  | cons para rest ih =>
      intro cur cc
      have hrec := ih (cur ++ [para]) (cc + (para.text.length + sepCost cur))
      simp only [collectLoop, List.length_cons]
      split
      · simp
      · split
        · simp
        · simp
          omega

theorem collectLoop_count_pos (t m : Int) (xs : List Paragraph) (hxs : xs ≠ []) :
    1 ≤ (collectLoop t m [] 0 xs).2.2 := by
  cases xs with
  | nil => exact absurd rfl hxs
  | cons para rest =>
      simp only [collectLoop]
      split
      · rename_i hguard
        simp at hguard
      · split
        · simp
        · simp

theorem collectWindow_bounds (ps : List Paragraph) (s : Nat) (t m : Int)
    (h : s < ps.length) :
    s + 1 ≤ (collectWindow ps s t m).2.2 ∧ (collectWindow ps s t m).2.2 ≤ ps.length := by
  have hdrop : ps.drop s ≠ [] := by
    intro hcon
    have := List.drop_eq_nil_iff.mp hcon
    omega
  have hle := collectLoop_count_le t m (ps.drop s) [] 0
  have hpos := collectLoop_count_pos t m (ps.drop s) hdrop
  have hlen : (ps.drop s).length = ps.length - s := List.length_drop s ps
  simp only [collectWindow]
  constructor
  · split
    · simp only []
      omega
    · simp only []
      omega
  · split
    · simp only []
      omega
    · simp only []
      omega

theorem advanceStart_le (ps : List Paragraph) (s e c : Nat) (r : ℚ) (h : s ≤ e) :
    advanceStart ps s e c r ≤ e := by
  simp only [advanceStart]
  split
  · exact Nat.le_refl e
  · split
    · exact Nat.le_refl e
    · split
      · have h1 := walkCount_le ((ps.getD (e - 1) defaultPara).«end» - ⌊(c : ℚ) * r⌋)
          ((ps.drop s).take (e - s))
        have h2 : ((ps.drop s).take (e - s)).length ≤ e - s :=
          List.length_take_le (e - s) (ps.drop s)
        omega
      · exact Nat.le_refl e

theorem advanceStart_gt (ps : List Paragraph) (s e c : Nat) (r : ℚ) (h : s < e) :
    s < advanceStart ps s e c r := by
  simp only [advanceStart]
  split
  · exact h
  · split
    · exact h
    · split
      · omega
      · exact h

/-- `_yield_chunks` (`app/chunking.py` lines 148-183): the top-level chunking
loop.  Termination is by the strictly increasing start index (the content of
the forced-progress fallback in `_advance_start`). -/
def yieldChunksAux (paragraphs : List Paragraph) (target min_chars : Int)
    (overlap_ratio : ℚ) (chunkIndex startIdx : Nat) : List Chunk :=
  if h : startIdx < paragraphs.length then
    let r := collectWindow paragraphs startIdx target min_chars
    let chunk : Chunk :=
      { id := chunkId chunkIndex
        text := joinParas (r.1.map Paragraph.text)
        page_start := (r.1.headD defaultPara).page
        page_end := (r.1.getLastD defaultPara).page
        start_char := (r.1.headD defaultPara).start
        end_char := (r.1.getLastD defaultPara).«end» }
    if r.2.2 ≥ paragraphs.length then [chunk]
    else chunk :: yieldChunksAux paragraphs target min_chars overlap_ratio (chunkIndex + 1)
      (advanceStart paragraphs startIdx r.2.2 r.2.1 overlap_ratio)
  else []
termination_by paragraphs.length - startIdx
decreasing_by
  have hb := collectWindow_bounds paragraphs startIdx target min_chars h
  have hgt := advanceStart_gt paragraphs startIdx
    (collectWindow paragraphs startIdx target min_chars).2.2
    (collectWindow paragraphs startIdx target min_chars).2.1 overlap_ratio (by omega)
  omega

/-- `list(_yield_chunks(paragraphs, ...))`: chunk ids start at 0. -/
def yieldChunks (paragraphs : List Paragraph) (target min_chars : Int)
    (overlap_ratio : ℚ) : List Chunk :=
  yieldChunksAux paragraphs target min_chars overlap_ratio 0 0

/-- `ChunkRecord` dataclass from `app/search.py`. -/
structure ChunkRecord where
  id : String
  text : String
  page_start : Int
  page_end : Int
  start_char : Int
  end_char : Int
deriving DecidableEq

/-- The nearest-neighbor index artifact (`faiss.IndexFlatIP`), as the spec's
black box: a vector count and a search primitive
`query vector x k -> (scores, indices)`.  Scores are rationals, indices are
Python ints (FAISS may emit `-1` sentinels). -/
structure FaissIndex where
  ntotal : Nat
  nnsearch : List ℚ → Nat → List ℚ × List Int

/-- The `ArtifactStore` of `app/search.py`, with the lazy load-once
concurrency flattened away: the three file-existence facts that `is_ready`
consults, the parsed artifact contents, and the embedding model as a pure
function (the spec treats the sentence-transformer as `text -> vector`). -/
structure ArtifactStore where
  chunksExists : Bool
  idsExists : Bool
  faissExists : Bool
  chunkData : List ChunkRecord
  ids : List String
  index : FaissIndex
  model : String → List ℚ

/-- `ArtifactStore.is_ready` (`app/search.py` lines 70-75). -/
def isReady (s : ArtifactStore) : Bool :=
  s.chunksExists && s.idsExists && s.faissExists

/-- `_load_chunks`: the chunk JSONL lines become a dict keyed by id (later
lines overwrite earlier ones); this is the lookup of one id. -/
def chunkLookup (data : List ChunkRecord) (id : String) : Option ChunkRecord :=
  data.reverse.find? (fun r => r.id == id)

/-- The error conditions `search` can raise: `ValueError` for a non-positive
`top_k`, `FileNotFoundError` when artifacts are missing, `KeyError` from
`_ensure_ordered_chunks` when an id has no chunk metadata. -/
inductive SearchError where
  | invalidTopK : SearchError
  | artifactsMissing : SearchError
  | missingChunkId : String → SearchError
deriving DecidableEq

/-- `_ensure_ordered_chunks` (`app/search.py` lines 114-127): resolve the
persisted id order against chunk metadata; a missing id is fatal. -/
def orderedChunksFrom (data : List ChunkRecord) :
    List String → Except SearchError (List ChunkRecord)
  | [] => Except.ok []
  | id :: rest =>
      match chunkLookup data id with
      | none => Except.error (SearchError.missingChunkId id)
      | some r =>
          match orderedChunksFrom data rest with
          | Except.error e => Except.error e
          | Except.ok l => Except.ok (r :: l)

def orderedChunks (s : ArtifactStore) : Except SearchError (List ChunkRecord) :=
  orderedChunksFrom s.chunkData s.ids

/-- `encode_query` (`app/search.py` lines 155-163): the model encodes the
query with the asymmetric `"query: "` marker prepended. -/
def encodeQuery (s : ArtifactStore) (query : String) : List ℚ :=
  s.model ("query: " ++ query)

/-- The candidate dict built by `_make_candidates`, including the internal
`text` and `rank` fields that are stripped before the response. -/
structure Candidate where
  id : String
  score : ℚ
  page_start : Int
  page_end : Int
  start_char : Int
  end_char : Int
  preview : String
  text : String
  rank : Nat
deriving DecidableEq

/-- `PREVIEW_CHARS` from `app/search.py`. -/
def PREVIEW_CHARS : Nat := 240

/-- `chunk.text[:PREVIEW_CHARS].strip().replace("\n", " ")` from
`_make_candidates`. -/
def previewOf (text : String) : String :=
  String.mk ((pyStrip (String.mk (text.data.take PREVIEW_CHARS))).data.map
    (fun c => if c == '\n' then ' ' else c))

/-- The loop of `_make_candidates` (`app/search.py` lines 218-241):
`for rank, (idx, score) in enumerate(zip(indices, scores))`, skipping
out-of-range indices (the FAISS `-1` padding). -/
def makeCandidatesAux (ordered : List ChunkRecord) : Nat → List (Int × ℚ) → List Candidate
  | _, [] => []
  | rank, (idx, score) :: rest =>
      if h : 0 ≤ idx ∧ idx.toNat < ordered.length then
        let chunk := ordered.get ⟨idx.toNat, h.2⟩
        { id := chunk.id
          score := score
          page_start := chunk.page_start
          page_end := chunk.page_end
          start_char := chunk.start_char
          end_char := chunk.end_char
          preview := previewOf chunk.text
          text := chunk.text
          rank := rank } :: makeCandidatesAux ordered (rank + 1) rest
      else makeCandidatesAux ordered (rank + 1) rest

def makeCandidates (indices : List Int) (scores : List ℚ)
    (ordered : List ChunkRecord) : List Candidate :=
  makeCandidatesAux ordered 0 (indices.zip scores)

/-- `OptionalReranker.rerank` (`app/search.py` lines 200-211).  The scorer
argument is the resolved state of `_get_model`: `none` when the CrossEncoder
load failed permanently (the cached-failure passthrough), `some f` when it
loaded, `f` being the spec's pure pairwise scorer.  Python's
`list.sort(key=..., reverse=True)` is a stable descending sort, modelled with
`List.mergeSort`. -/
def rerank (scorer : Option (String → String → ℚ)) (query : String)
    (candidates : List Candidate) (top_k : Nat) : List Candidate :=
  match scorer with
  | none => candidates.take top_k
  | some f =>
      let scored := candidates.map
        (fun entry => { entry with
          score := f ("query: " ++ query) ("passage: " ++ entry.text) })
      (scored.mergeSort (fun a b => decide (b.score ≤ a.score))).take top_k

/-- A cleaned external result (`app/search.py` lines 277-291): exactly the
seven public fields of the response; `text` and `rank` are stripped. -/
structure SearchResult where
  id : String
  score : ℚ
  page_start : Int
  page_end : Int
  start_char : Int
  end_char : Int
  preview : String
deriving DecidableEq

def cleanCandidate (entry : Candidate) : SearchResult :=
  ⟨entry.id, entry.score, entry.page_start, entry.page_end, entry.start_char,
    entry.end_char, entry.preview⟩

/-- `DEFAULT_CANDIDATES` from `app/search.py`. -/
def DEFAULT_CANDIDATES : Nat := 50

/-- `for rank, entry in enumerate(...): entry["rank"] = rank`. -/
def reassignRanksAux : Nat → List Candidate → List Candidate
  | _, [] => []
  | rank, entry :: rest => { entry with rank := rank } :: reassignRanksAux (rank + 1) rest

/-- `search` (`app/search.py` lines 244-291).  `top_k` is a Python int.  The
`scorer` stands for the module-global `RERANKER` after its one-shot load has
resolved.  The `isinstance(index, IndexFlatIP)` configuration check cannot
fail here because the index field is the right shape by construction. -/
def search (store : ArtifactStore) (scorer : Option (String → String → ℚ))
    (query : String) (top_k : Int) (rerank_flag : Bool) :
    Except SearchError (List SearchResult) :=
  if top_k ≤ 0 then Except.error SearchError.invalidTopK
  else if ¬ isReady store then Except.error SearchError.artifactsMissing
  else
    let queryVector := encodeQuery store query
    let candidateCount := min (max top_k.toNat DEFAULT_CANDIDATES) store.index.ntotal
    if candidateCount = 0 then Except.ok []
    else
      let sr := store.index.nnsearch queryVector candidateCount
      match orderedChunks store with
      | Except.error e => Except.error e
      | Except.ok ordered =>
          let candidates := makeCandidates sr.2 sr.1 ordered
          if candidates.isEmpty then Except.ok []
          else
            let final :=
              if rerank_flag then rerank scorer query candidates top_k.toNat
              else candidates.take top_k.toNat
            Except.ok ((reassignRanksAux 0 final).map cleanCandidate)

/-- The API error taxonomy of `search_endpoint` in `app/api/server.py`:
pydantic request-validation failures (HTTP 422), and the handler mappings
`FileNotFoundError -> 503`, `ValueError -> 400`, anything else -> 500. -/
inductive ApiError where
  | requestValidation : ApiError
  | serviceUnavailable : ApiError
  | badRequest : ApiError
  | internalError : ApiError
deriving DecidableEq

/-- `SearchRequest` validation (`app/api/server.py` lines 30-44): pydantic
strips whitespace (`str_strip_whitespace=True`) before checking
`min_length=1` and `max_length=600`; the `_ensure_not_blank` validator
re-checks non-blankness and returns the stripped value; `top_k` must lie in
`[1, 10]` (`ge=1, le=10`). -/
def validateRequest (query : String) (top_k : Int) : Option (String × Int) :=
  let stripped := pyStrip query
  if stripped.length < 1 then none
  else if stripped.length > 600 then none
  else if pyStrip stripped = "" then none
  else if top_k < 1 then none
  else if top_k > 10 then none
  else some (pyStrip stripped, top_k)

/-- `search_endpoint` (`app/api/server.py` lines 80-102) composed with
`retrieve` (`app/api/retrieval_service.py`): validate the request, delegate
to `search`, translate exceptions to HTTP statuses. -/
def searchEndpoint (store : ArtifactStore) (scorer : Option (String → String → ℚ))
    (query : String) (top_k : Int) (rerank_flag : Bool) :
    Except ApiError (List SearchResult) :=
  match validateRequest query top_k with
  | none => Except.error ApiError.requestValidation
  | some (q, k) =>
      match search store scorer q k rerank_flag with
      | Except.ok l => Except.ok l
      | Except.error SearchError.artifactsMissing => Except.error ApiError.serviceUnavailable
      | Except.error SearchError.invalidTopK => Except.error ApiError.badRequest
      | Except.error (SearchError.missingChunkId _) => Except.error ApiError.internalError

theorem orderedChunksFrom_error (data : List ChunkRecord) :
    ∀ (ids : List String) (e : SearchError),
      orderedChunksFrom data ids = Except.error e →
      ∃ id, e = SearchError.missingChunkId id := by
  intro ids
  induction ids with
  | nil =>
      intro e he
      simp [orderedChunksFrom] at he
  | cons id rest ih =>
      intro e he
      simp only [orderedChunksFrom] at he
      cases hl : chunkLookup data id with
      | none =>
          rw [hl] at he
          simp at he
          exact ⟨id, he.symm⟩
      | some r =>
          rw [hl] at he
          cases ho : orderedChunksFrom data rest with
          | error e2 =>
              rw [ho] at he
              simp at he
              obtain ⟨id2, h2⟩ := ih e2 ho
              exact ⟨id2, by rw [← he, h2]⟩
          | ok l =>
              rw [ho] at he
              simp at he

theorem search_shape (store : ArtifactStore) (scorer : Option (String → String → ℚ))
    (query : String) (top_k : Int) (rerank_flag : Bool)
    (hk : ¬ top_k ≤ 0) (hr : isReady store = true) :
    (∃ l, search store scorer query top_k rerank_flag = Except.ok l) ∨
    (∃ id, search store scorer query top_k rerank_flag =
      Except.error (SearchError.missingChunkId id)) := by
  simp only [search]
  rw [if_neg hk, if_neg (by simp [hr])]
  split
  · exact Or.inl ⟨[], rfl⟩
  · cases ho : orderedChunks store with
    | error e =>
        obtain ⟨id, hid⟩ := orderedChunksFrom_error store.chunkData store.ids e ho
        right
        refine ⟨id, ?_⟩
        show Except.error e = _
        rw [hid]
    | ok ordered =>
        left
        dsimp only
        split_ifs <;> exact ⟨_, rfl⟩

/-- C4: `search` fails with `ValueError` (`invalidTopK`) exactly when
`top_k <= 0`, and with `FileNotFoundError` (`artifactsMissing`) exactly when
`top_k` is positive and at least one of the three artifact files is missing
(`is_ready` is false).  Both equivalences hold for every store, scorer, query
and flag, so neither outcome can depend on artifact contents, the index, or
the embedding model: the guards run before any loading or encoding. -/
theorem search_error_conditions (store : ArtifactStore)
    (scorer : Option (String → String → ℚ)) (query : String) (top_k : Int)
    (rerank_flag : Bool) :
    (search store scorer query top_k rerank_flag = Except.error SearchError.invalidTopK ↔
      top_k ≤ 0) ∧
    (search store scorer query top_k rerank_flag = Except.error SearchError.artifactsMissing ↔
      1 ≤ top_k ∧ isReady store = false) := by
  by_cases hk : top_k ≤ 0
  · constructor
    · simp [search, hk]
    · constructor
      · intro h
        simp [search, hk] at h
      · intro h
        omega
  · by_cases hr : isReady store = true
    · have hs := search_shape store scorer query top_k rerank_flag hk hr
      constructor
      · constructor
        · intro h
          rcases hs with ⟨l, hl⟩ | ⟨id, hid⟩
          · rw [h] at hl
            simp at hl
          · rw [h] at hid
            simp at hid
        · intro h
          exact absurd h hk
      · constructor
        · intro h
          rcases hs with ⟨l, hl⟩ | ⟨id, hid⟩
          · rw [h] at hl
            simp at hl
          · rw [h] at hid
            simp at hid
        · intro h
          rw [hr] at h
          simp at h
    · have hfalse : isReady store = false := by
        cases hb : isReady store
        · rfl
        · exact absurd hb hr
      have hres : search store scorer query top_k rerank_flag =
          Except.error SearchError.artifactsMissing := by
        simp [search, hk, hfalse]
      constructor
      · constructor
        · intro h
          rw [hres] at h
          simp at h
        · intro h
          exact absurd h hk
      · constructor
        · intro _
          exact ⟨by omega, hfalse⟩
        · intro _
          exact hres

/-- C8: with ready artifacts and positive `top_k`, the candidate count
`min(max(top_k, DEFAULT_CANDIDATES), ntotal)` is zero exactly when the index
is empty, and in that case `search` returns `ok []` immediately — for every
nearest-neighbor search function, since the empty result is forced before any
index search can contribute. -/
theorem search_empty_index (store : ArtifactStore)
    (scorer : Option (String → String → ℚ)) (query : String) (top_k : Int)
    (rerank_flag : Bool) (hk : 1 ≤ top_k) (hr : isReady store = true) :
    (min (max top_k.toNat DEFAULT_CANDIDATES) store.index.ntotal = 0 ↔
      store.index.ntotal = 0) ∧
    (store.index.ntotal = 0 →
      search store scorer query top_k rerank_flag = Except.ok []) := by
  constructor
  · simp only [DEFAULT_CANDIDATES]
    omega
  · intro hz
    simp only [search]
    rw [if_neg (by omega), if_neg (by simp [hr])]
    rw [if_pos (by simp [hz])]

/-- A concrete ready store with an empty index for the C8 witness. -/
def emptyIndexStore : ArtifactStore :=
  ⟨true, true, true, [], [], ⟨0, fun _ _ => ([], [])⟩, fun _ => []⟩

/-- Witness for `search_empty_index` on a ready store with an empty index. -/
theorem search_empty_index_witness :
    (1 : Int) ≤ 2 ∧ isReady emptyIndexStore = true ∧
    ((min (max (2 : Int).toNat DEFAULT_CANDIDATES) emptyIndexStore.index.ntotal = 0 ↔
      emptyIndexStore.index.ntotal = 0) ∧
    (emptyIndexStore.index.ntotal = 0 →
      search emptyIndexStore none "q" 2 false = Except.ok [])) :=
  ⟨by decide, by decide,
    search_empty_index emptyIndexStore none "q" 2 false (by decide) (by decide)⟩

/-- C6: when the cross-encoder reranker could not be loaded (the cached
permanent-failure state, scorer `none`), `search` with `rerank=True` is the
no-op passthrough: it returns exactly the same result list, in the same
order, as `rerank=False` — for every store, query and `top_k`. -/
theorem search_rerank_unavailable_noop (store : ArtifactStore) (query : String)
    (top_k : Int) :
    search store none query top_k true = search store none query top_k false := rfl

/-- C7: determinism of `search` with `rerank=False` under identical loaded
artifacts: the result — in particular the `(id, score)` sequence — is a pure
function of the store, query and `top_k`, and is independent of the reranker
state (the only other process-global state `search` consults). -/
theorem search_deterministic (store : ArtifactStore)
    (scorer₁ scorer₂ : Option (String → String → ℚ)) (query : String) (top_k : Int) :
    search store scorer₁ query top_k false = search store scorer₂ query top_k false := rfl

/-- A concrete ready store (empty index) for the C9 counterexample. -/
def blankQueryStore : ArtifactStore :=
  ⟨true, true, true, [], [], ⟨0, fun _ _ => ([], [])⟩, fun _ => []⟩

/-- C9 counterexample: the core retrieval entrypoint `search` does not reject
a blank query.  On a ready store, `search("")` returns `ok []` rather than
any validation error. -/
theorem search_accepts_blank_query :
    pyStrip "" = "" ∧ search blankQueryStore none "" 1 true = Except.ok [] :=
  ⟨rfl, rfl⟩

/-- C9 amended: blank-query rejection is performed by the HTTP
request-validation layer (`SearchRequest`), not by `search`: for every blank
query the endpoint fails with the request-validation error, for every store,
scorer, `top_k` and flag — so the rejection cannot involve any retrieval
I/O. -/
theorem endpoint_rejects_blank_query (store : ArtifactStore)
    (scorer : Option (String → String → ℚ)) (query : String) (top_k : Int)
    (rerank_flag : Bool) (hblank : pyStrip query = "") :
    searchEndpoint store scorer query top_k rerank_flag =
      Except.error ApiError.requestValidation := by
  simp [searchEndpoint, validateRequest, hblank]

/-- Witness for `endpoint_rejects_blank_query` at a whitespace-only query. -/
theorem endpoint_rejects_blank_query_witness :
    pyStrip " " = "" ∧
    searchEndpoint blankQueryStore none " " 3 true =
      Except.error ApiError.requestValidation :=
  ⟨rfl, endpoint_rejects_blank_query blankQueryStore none " " 3 true rfl⟩

/-- The character cost of a window: the first paragraph costs its length and
each later one costs its length plus the 2-character separator (the cost
accounting of `_collect_window`). -/
def windowCost : List Paragraph → Nat
  | [] => 0
  | p :: rest => p.text.length + (rest.map (fun q => q.text.length + 2)).sum

theorem windowCost_append_single (cur : List Paragraph) (p : Paragraph) :
    windowCost (cur ++ [p]) = windowCost cur + (p.text.length + sepCost cur) := by
  cases cur with
  | nil => simp [windowCost, sepCost]
  | cons c rest =>
      simp [windowCost, sepCost, List.map_append]
      ring

theorem collectLoop_window_eq (t m : Int) :
    ∀ (xs cur : List Paragraph) (cc : Nat),
      (collectLoop t m cur cc xs).1 = cur ++ xs.take (collectLoop t m cur cc xs).2.2 := by
  intro xs
  induction xs with
  | nil => intro cur cc; simp [collectLoop]
  | cons para rest ih =>
      intro cur cc
      simp only [collectLoop]
      split
      · simp
      · split
        · simp
        · simp [ih (cur ++ [para])]

theorem collectLoop_cost_eq (t m : Int) :
    ∀ (xs cur : List Paragraph) (cc : Nat), cc = windowCost cur →
      (collectLoop t m cur cc xs).2.1 = windowCost (collectLoop t m cur cc xs).1 := by
  intro xs
  induction xs with
  | nil => intro cur cc h; simpa [collectLoop] using h
  | cons para rest ih =>
      intro cur cc h
      simp only [collectLoop]
      split
      · exact h
      · split
        · rw [windowCost_append_single, h]
        · exact ih (cur ++ [para]) _ (by rw [windowCost_append_single, h])

theorem collectLoop_stop (t m : Int) :
    ∀ (xs cur : List Paragraph) (cc : Nat), cc = windowCost cur →
      (collectLoop t m cur cc xs).2.2 < xs.length →
      ((collectLoop t m cur cc xs).1 ≠ [] ∧
        ((((collectLoop t m cur cc xs).2.1 : Int) +
            ((xs.getD (collectLoop t m cur cc xs).2.2 defaultPara).text.length + 2) > t ∧
          ((collectLoop t m cur cc xs).2.1 : Int) ≥ m) ∨
         ((collectLoop t m cur cc xs).2.1 : Int) ≥ t)) := by
  intro xs
  induction xs with
  | nil => intro cur cc _ hlt; simp [collectLoop] at hlt
  | cons para rest ih =>
      intro cur cc h
      simp only [collectLoop]
      split
      · rename_i hguard
        intro _
        obtain ⟨hne, hant, hcc⟩ := hguard
        have hcur : cur.isEmpty = false := by
          cases hb : cur.isEmpty
          · rfl
          · exact absurd hb hne
        have hsep : sepCost cur = 2 := by simp [sepCost, hcur]
        refine ⟨?_, Or.inl ⟨?_, hcc⟩⟩
        · intro hnil
          have hnil2 : cur = [] := hnil
          rw [hnil2] at hcur
          simp at hcur
        · rw [hsep] at hant
          simp only [List.getD_cons_zero]
          push_cast at hant ⊢
          omega
      · rename_i hnguard
        split
        · rename_i hant
          intro _
          exact ⟨by simp, Or.inr (by simpa using hant)⟩
        · rename_i hnant
          intro hlt
          simp only [List.length_cons] at hlt
          have hrec := ih (cur ++ [para]) (cc + (para.text.length + sepCost cur))
            (by rw [windowCost_append_single, h]) (by simp at hlt; simpa using hlt)
          simpa using hrec

theorem collectLoop_keeps_adding (t m : Int) :
    ∀ (xs cur : List Paragraph) (cc : Nat), cc = windowCost cur →
      ∀ j, j < (collectLoop t m cur cc xs).2.2 →
        cur ++ xs.take j ≠ [] →
        ¬ (((windowCost (cur ++ xs.take j) : Int) +
              ((xs.getD j defaultPara).text.length + 2) > t) ∧
           ((windowCost (cur ++ xs.take j) : Int) ≥ m)) := by
  intro xs
  induction xs with
  | nil => intro cur cc _ j hj; simp [collectLoop] at hj
  | cons para rest ih =>
      intro cur cc h j hj hne
      simp only [collectLoop] at hj
      revert hj
      split
      · intro hj
        simp at hj
      · rename_i hguard
        split
        · intro hj
          have hj0 : j = 0 := by simp at hj; omega
          subst hj0
          simp only [List.take_zero, List.append_nil] at hne ⊢
          have hcur : cur.isEmpty = false := by
            cases hb : cur.isEmpty
            · rfl
            · exact absurd (List.isEmpty_iff.mp hb) hne
          have hsep : sepCost cur = 2 := by simp [sepCost, hcur]
          intro hcon
          apply hguard
          rw [hcur, h, hsep]
          refine ⟨by simp, ?_, hcon.2⟩
          simp only [List.getD_cons_zero] at hcon
          push_cast at hcon ⊢
          omega
        · intro hj
          cases j with
          | zero =>
              simp only [List.take_zero, List.append_nil] at hne ⊢
              have hcur : cur.isEmpty = false := by
                cases hb : cur.isEmpty
                · rfl
                · exact absurd (List.isEmpty_iff.mp hb) hne
              have hsep : sepCost cur = 2 := by simp [sepCost, hcur]
              intro hcon
              apply hguard
              rw [hcur, h, hsep]
              refine ⟨by simp, ?_, hcon.2⟩
              simp only [List.getD_cons_zero] at hcon
              push_cast at hcon ⊢
              omega
          | succ j₀ =>
              have hj₀ : j₀ < (collectLoop t m (cur ++ [para])
                  (cc + (para.text.length + sepCost cur)) rest).2.2 := by
                simp at hj
                omega
              have hrec := ih (cur ++ [para]) (cc + (para.text.length + sepCost cur))
                (by rw [windowCost_append_single, h]) j₀ hj₀ (by simp)
              simpa [List.take_succ_cons] using hrec

theorem getD_drop : ∀ (ps : List Paragraph) (s k : Nat) (d : Paragraph),
    (ps.drop s).getD k d = ps.getD (s + k) d
  | _, 0, _, _ => by simp
  | [], _ + 1, _, _ => by simp
  | p :: rest, s + 1, k, d => by
      have hidx : s + 1 + k = (s + k) + 1 := by omega
      rw [List.drop_succ_cons, getD_drop rest s k d, hidx, List.getD_cons_succ]

theorem headD_take (xs : List Paragraph) (n : Nat) (hn : 1 ≤ n) :
    (xs.take n).headD defaultPara = xs.headD defaultPara := by
  cases xs with
  | nil => simp
  | cons a l =>
      cases n with
      | zero => omega
      | succ n₀ => simp

theorem headD_drop (ps : List Paragraph) (s : Nat) (hs : s < ps.length) :
    (ps.drop s).headD defaultPara = ps.getD s defaultPara := by
  rw [List.drop_eq_getElem_cons hs]
  simp [List.getD_eq_getElem ps defaultPara hs]

theorem collectWindow_eq_loop (ps : List Paragraph) (s : Nat) (t m : Int)
    (h : s < ps.length) :
    collectWindow ps s t m =
      ((collectLoop t m [] 0 (ps.drop s)).1, (collectLoop t m [] 0 (ps.drop s)).2.1,
        s + (collectLoop t m [] 0 (ps.drop s)).2.2) := by
  have hdrop : ps.drop s ≠ [] := by
    intro hcon
    have := List.drop_eq_nil_iff.mp hcon
    omega
  have hpos := collectLoop_count_pos t m (ps.drop s) hdrop
  have hwin := collectLoop_window_eq t m (ps.drop s) [] 0
  have hne' : (collectLoop t m [] 0 (ps.drop s)).1 ≠ [] := by
    rw [hwin]
    simp only [List.nil_append]
    have hlen : 0 < ((ps.drop s).take (collectLoop t m [] 0 (ps.drop s)).2.2).length := by
      rw [List.length_take]
      have h2 : 0 < (ps.drop s).length := List.length_pos.mpr hdrop
      omega
    exact List.length_pos.mp hlen
  have hne : (collectLoop t m [] 0 (ps.drop s)).1.isEmpty = false := by
    cases hb : (collectLoop t m [] 0 (ps.drop s)).1.isEmpty
    · rfl
    · exact absurd (List.isEmpty_iff.mp hb) hne'
  simp only [collectWindow]
  rw [if_neg (by simp [hne])]

/-- C5 (amended: restricted to configurations with
`min_chars <= target_chars`; the shipped defaults 1100 <= 1400 satisfy it):
`_collect_window` from an in-bounds start index returns the consecutive
paragraph slice anchored there, never empty and starting with the paragraph
at the start index; its accumulated character count charges each paragraph
after the first its length plus 2; it stops before an in-bounds next
paragraph only when the window is non-empty, adding that paragraph would
exceed `target_chars`, and the accumulated size meets `min_chars`; and every
later paragraph it did add was added with that stop condition false.  Without
`min_chars <= target_chars` the characterisation fails (see the
counterexample): the post-append `char_count >= target_chars` break can stop
the loop below `min_chars`. -/
theorem collect_window_characterisation (ps : List Paragraph) (s : Nat) (t m : Int)
    (hs : s < ps.length) (hmt : m ≤ t) :
    (collectWindow ps s t m).1 =
        (ps.drop s).take ((collectWindow ps s t m).2.2 - s) ∧
    (collectWindow ps s t m).1 ≠ [] ∧
    (collectWindow ps s t m).1.headD defaultPara = ps.getD s defaultPara ∧
    (collectWindow ps s t m).2.1 = windowCost (collectWindow ps s t m).1 ∧
    ((collectWindow ps s t m).2.2 < ps.length →
      (((collectWindow ps s t m).2.1 : Int) +
          ((ps.getD (collectWindow ps s t m).2.2 defaultPara).text.length + 2) > t ∧
        ((collectWindow ps s t m).2.1 : Int) ≥ m)) ∧
    (∀ j, s < j → j < (collectWindow ps s t m).2.2 →
      ¬ (((windowCost ((ps.drop s).take (j - s)) : Int) +
            ((ps.getD j defaultPara).text.length + 2) > t) ∧
         ((windowCost ((ps.drop s).take (j - s)) : Int) ≥ m))) := by
  have heq := collectWindow_eq_loop ps s t m hs
  have hdrop : ps.drop s ≠ [] := by
    intro hcon
    have := List.drop_eq_nil_iff.mp hcon
    omega
  have hlendrop : (ps.drop s).length = ps.length - s := List.length_drop s ps
  have hpos := collectLoop_count_pos t m (ps.drop s) hdrop
  have hcle := collectLoop_count_le t m (ps.drop s) [] 0
  have hwin := collectLoop_window_eq t m (ps.drop s) [] 0
  have hcost := collectLoop_cost_eq t m (ps.drop s) [] 0 (by simp [windowCost])
  rw [heq]
  dsimp only
  simp only [List.nil_append] at hwin
  refine ⟨?_, ?_, ?_, ?_, ?_, ?_⟩
  · rw [Nat.add_sub_cancel_left]
    exact hwin
  · rw [hwin]
    have hlen : 0 < ((ps.drop s).take (collectLoop t m [] 0 (ps.drop s)).2.2).length := by
      rw [List.length_take]
      omega
    exact List.length_pos.mp hlen
  · rw [hwin, headD_take _ _ hpos, headD_drop ps s hs]
  · simpa using hcost
  · intro hlt
    have hxs : (collectLoop t m [] 0 (ps.drop s)).2.2 < (ps.drop s).length := by omega
    have hstop := collectLoop_stop t m (ps.drop s) [] 0 (by simp [windowCost]) hxs
    rw [getD_drop] at hstop
    rcases hstop.2 with hA | hB
    · exact hA
    · constructor
      · have hlen0 : (0 : Int) ≤ ((ps.getD (s + (collectLoop t m [] 0 (ps.drop s)).2.2)
            defaultPara).text.length : Int) := by positivity
        omega
      · omega
  · intro j hsj hje
    have hkeep := collectLoop_keeps_adding t m (ps.drop s) [] 0 (by simp [windowCost])
      (j - s) (by omega) (by
        simp only [List.nil_append]
        have hlen : 0 < ((ps.drop s).take (j - s)).length := by
          rw [List.length_take]
          omega
        exact List.length_pos.mp hlen)
    simp only [List.nil_append] at hkeep
    rw [getD_drop] at hkeep
    have hj' : s + (j - s) = j := by omega
    rw [hj'] at hkeep
    exact hkeep

/-- C5 counterexample: with `target_chars = 1` and `min_chars = 10` the loop
stops before adding the second paragraph (via the post-append
`char_count >= target_chars` break) although the accumulated size 1 does not
meet `min_chars = 10`, so "stops exactly when ... the accumulated size
already meets `min_chars`" fails for arbitrary target/min settings. -/
theorem collect_window_stop_counterexample :
    (collectWindow [⟨1, "a", 0, 1⟩, ⟨1, "b", 3, 4⟩] 0 1 10).2.2 <
      ([⟨1, "a", 0, 1⟩, ⟨1, "b", 3, 4⟩] : List Paragraph).length ∧
    (collectWindow [⟨1, "a", 0, 1⟩, ⟨1, "b", 3, 4⟩] 0 1 10).2.1 = 1 ∧
    ¬ (((collectWindow [⟨1, "a", 0, 1⟩, ⟨1, "b", 3, 4⟩] 0 1 10).2.1 : Int) ≥ 10) := by
  refine ⟨by decide, rfl, by decide⟩

/-- Witness for `collect_window_characterisation` on a three-paragraph
sequence with `min_chars = 3 <= target_chars = 5`. -/
theorem collect_window_characterisation_witness :
    0 < ([⟨1, "ab", 0, 2⟩, ⟨1, "cd", 4, 6⟩, ⟨1, "ef", 8, 10⟩] : List Paragraph).length ∧
    (3 : Int) ≤ 5 ∧
    ((collectWindow [⟨1, "ab", 0, 2⟩, ⟨1, "cd", 4, 6⟩, ⟨1, "ef", 8, 10⟩] 0 5 3).1 =
        (([⟨1, "ab", 0, 2⟩, ⟨1, "cd", 4, 6⟩, ⟨1, "ef", 8, 10⟩] : List Paragraph).drop 0).take
          ((collectWindow [⟨1, "ab", 0, 2⟩, ⟨1, "cd", 4, 6⟩, ⟨1, "ef", 8, 10⟩] 0 5 3).2.2 - 0) ∧
      (collectWindow [⟨1, "ab", 0, 2⟩, ⟨1, "cd", 4, 6⟩, ⟨1, "ef", 8, 10⟩] 0 5 3).1 ≠ [] ∧
      (collectWindow [⟨1, "ab", 0, 2⟩, ⟨1, "cd", 4, 6⟩, ⟨1, "ef", 8, 10⟩] 0 5 3).1.headD
          defaultPara =
        ([⟨1, "ab", 0, 2⟩, ⟨1, "cd", 4, 6⟩, ⟨1, "ef", 8, 10⟩] : List Paragraph).getD 0
          defaultPara ∧
      (collectWindow [⟨1, "ab", 0, 2⟩, ⟨1, "cd", 4, 6⟩, ⟨1, "ef", 8, 10⟩] 0 5 3).2.1 =
        windowCost (collectWindow [⟨1, "ab", 0, 2⟩, ⟨1, "cd", 4, 6⟩, ⟨1, "ef", 8, 10⟩] 0 5 3).1 ∧
      ((collectWindow [⟨1, "ab", 0, 2⟩, ⟨1, "cd", 4, 6⟩, ⟨1, "ef", 8, 10⟩] 0 5 3).2.2 <
          ([⟨1, "ab", 0, 2⟩, ⟨1, "cd", 4, 6⟩, ⟨1, "ef", 8, 10⟩] : List Paragraph).length →
        (((collectWindow [⟨1, "ab", 0, 2⟩, ⟨1, "cd", 4, 6⟩, ⟨1, "ef", 8, 10⟩] 0 5 3).2.1 : Int) +
            ((([⟨1, "ab", 0, 2⟩, ⟨1, "cd", 4, 6⟩, ⟨1, "ef", 8, 10⟩] : List Paragraph).getD
                (collectWindow [⟨1, "ab", 0, 2⟩, ⟨1, "cd", 4, 6⟩, ⟨1, "ef", 8, 10⟩] 0 5 3).2.2
                defaultPara).text.length + 2) > 5 ∧
          ((collectWindow [⟨1, "ab", 0, 2⟩, ⟨1, "cd", 4, 6⟩, ⟨1, "ef", 8, 10⟩] 0 5 3).2.1 : Int) ≥ 3)) ∧
      (∀ j, 0 < j → j < (collectWindow [⟨1, "ab", 0, 2⟩, ⟨1, "cd", 4, 6⟩, ⟨1, "ef", 8, 10⟩] 0 5 3).2.2 →
        ¬ (((windowCost ((([⟨1, "ab", 0, 2⟩, ⟨1, "cd", 4, 6⟩, ⟨1, "ef", 8, 10⟩] : List Paragraph).drop 0).take (j - 0)) : Int) +
              ((([⟨1, "ab", 0, 2⟩, ⟨1, "cd", 4, 6⟩, ⟨1, "ef", 8, 10⟩] : List Paragraph).getD j
                  defaultPara).text.length + 2) > 5) ∧
           ((windowCost ((([⟨1, "ab", 0, 2⟩, ⟨1, "cd", 4, 6⟩, ⟨1, "ef", 8, 10⟩] : List Paragraph).drop 0).take (j - 0)) : Int) ≥ 3)))) :=
  ⟨by decide, by decide,
    collect_window_characterisation [⟨1, "ab", 0, 2⟩, ⟨1, "cd", 4, 6⟩, ⟨1, "ef", 8, 10⟩]
      0 5 3 (by decide) (by decide)⟩

/-- C3: chunking-loop progress: from any in-bounds start index, either the
collected window reaches the end of the paragraph sequence (the loop emits a
final chunk and stops), or the overlap-advance step returns a start index
strictly greater than the previous one and no greater than the window's end
(the snap-to-end fallback bounds it above). -/
theorem chunker_progress (ps : List Paragraph) (t m : Int) (r : ℚ) (s : Nat)
    (h : s < ps.length) :
    (collectWindow ps s t m).2.2 ≥ ps.length ∨
      (s < advanceStart ps s (collectWindow ps s t m).2.2 (collectWindow ps s t m).2.1 r ∧
        advanceStart ps s (collectWindow ps s t m).2.2 (collectWindow ps s t m).2.1 r ≤
          (collectWindow ps s t m).2.2) := by
  have hb := collectWindow_bounds ps s t m h
  by_cases he : (collectWindow ps s t m).2.2 ≥ ps.length
  · exact Or.inl he
  · exact Or.inr ⟨advanceStart_gt ps s _ _ r (by omega), advanceStart_le ps s _ _ r (by omega)⟩

/-- Witness for `chunker_progress` on a two-paragraph sequence. -/
theorem chunker_progress_witness :
    0 < ([⟨1, "a", 0, 1⟩, ⟨1, "b", 3, 4⟩] : List Paragraph).length ∧
    ((collectWindow [⟨1, "a", 0, 1⟩, ⟨1, "b", 3, 4⟩] 0 10 1).2.2 ≥ 2 ∨
      (0 < advanceStart [⟨1, "a", 0, 1⟩, ⟨1, "b", 3, 4⟩] 0
          (collectWindow [⟨1, "a", 0, 1⟩, ⟨1, "b", 3, 4⟩] 0 10 1).2.2
          (collectWindow [⟨1, "a", 0, 1⟩, ⟨1, "b", 3, 4⟩] 0 10 1).2.1 (3/20) ∧
        advanceStart [⟨1, "a", 0, 1⟩, ⟨1, "b", 3, 4⟩] 0
          (collectWindow [⟨1, "a", 0, 1⟩, ⟨1, "b", 3, 4⟩] 0 10 1).2.2
          (collectWindow [⟨1, "a", 0, 1⟩, ⟨1, "b", 3, 4⟩] 0 10 1).2.1 (3/20) ≤
          (collectWindow [⟨1, "a", 0, 1⟩, ⟨1, "b", 3, 4⟩] 0 10 1).2.2)) :=
  ⟨by decide, by
    have := chunker_progress [⟨1, "a", 0, 1⟩, ⟨1, "b", 3, 4⟩] 10 1 (3/20) 0 (by decide)
    simpa using this⟩

theorem collectWindow_window_slice (ps : List Paragraph) (s : Nat) (t m : Int)
    (h : s < ps.length) :
    (collectWindow ps s t m).1 =
      (ps.drop s).take ((collectWindow ps s t m).2.2 - s) ∧
    (collectWindow ps s t m).1 ≠ [] := by
  have heq := collectWindow_eq_loop ps s t m h
  have hdrop : ps.drop s ≠ [] := by
    intro hcon
    have := List.drop_eq_nil_iff.mp hcon
    omega
  have hpos := collectLoop_count_pos t m (ps.drop s) hdrop
  have hwin := collectLoop_window_eq t m (ps.drop s) [] 0
  simp only [List.nil_append] at hwin
  rw [heq]
  dsimp only
  constructor
  · rw [Nat.add_sub_cancel_left]
    exact hwin
  · rw [hwin]
    have hlen : 0 < ((ps.drop s).take (collectLoop t m [] 0 (ps.drop s)).2.2).length := by
      rw [List.length_take]
      have h2 : 0 < (ps.drop s).length := List.length_pos.mpr hdrop
      omega
    exact List.length_pos.mp hlen

/-- The offset discipline the spec asserts for exploded paragraphs: each
paragraph's `end` is its `start` plus its text length, and consecutive
paragraphs are separated by exactly the two-character separator.  It holds
for `_explode_paragraphs` output when no blank page sits between contributing
pages, but fails in general (blank interior pages advance the cursor by an
extra separator). -/
@[reducible] def Chained (ps : List Paragraph) : Prop :=
  (∀ p ∈ ps, p.«end» = p.start + (p.text.length : Int)) ∧
  List.Chain' (fun a b => b.start = a.«end» + 2) ps

theorem joinParas_length : ∀ w : List Paragraph,
    (joinParas (w.map Paragraph.text)).length = windowCost w
  | [] => rfl
  | [p] => by simp [joinParas, windowCost]
  | p :: q :: rest => by
      have ih := joinParas_length (q :: rest)
      simp only [List.map_cons, joinParas, windowCost] at ih ⊢
      rw [String.length_append, String.length_append]
      simp only [List.map_cons, List.sum_cons] at ih ⊢
      have hsep : ("\n\n" : String).length = 2 := rfl
      omega

theorem window_offsets : ∀ w : List Paragraph, w ≠ [] →
    (∀ p ∈ w, p.«end» = p.start + (p.text.length : Int)) →
    List.Chain' (fun a b => b.start = a.«end» + 2) w →
    (w.getLastD defaultPara).«end» - (w.headD defaultPara).start = (windowCost w : Int)
  | [], h, _, _ => absurd rfl h
  | [p], _, hlen, _ => by
      have hp := hlen p (by simp)
      simp [windowCost, hp]
  | p :: q :: rest, _, hlen, hchain => by
      rw [List.chain'_cons] at hchain
      have ih := window_offsets (q :: rest) (by simp)
        (fun x hx => hlen x (List.mem_cons_of_mem p hx)) hchain.2
      have hp := hlen p (by simp)
      have hpq := hchain.1
      have hlast : (p :: q :: rest).getLastD defaultPara =
          (q :: rest).getLastD defaultPara := by
        rw [List.getLastD_eq_getLast?, List.getLastD_eq_getLast?, List.getLast?_cons_cons]
      rw [hlast]
      have hwc : (windowCost (p :: q :: rest) : Int) =
          (windowCost (q :: rest) : Int) + p.text.length + 2 := by
        simp only [windowCost, List.map_cons, List.sum_cons]
        push_cast
        ring
      rw [hwc]
      have hq : (q :: rest).headD defaultPara = q := rfl
      rw [hq] at ih
      simp only [List.headD_cons]
      omega

theorem yieldChunksAux_mem_spec (ps : List Paragraph) (t m : Int) (r : ℚ) :
    ∀ (n ci s : Nat), ps.length - s ≤ n →
      ∀ c ∈ yieldChunksAux ps t m r ci s,
        ∃ sc, sc < ps.length ∧
          c.text = joinParas ((collectWindow ps sc t m).1.map Paragraph.text) ∧
          c.start_char = ((collectWindow ps sc t m).1.headD defaultPara).start ∧
          c.end_char = ((collectWindow ps sc t m).1.getLastD defaultPara).«end» := by
  intro n
  induction n with
  | zero =>
      intro ci s hn c hc
      rw [yieldChunksAux] at hc
      rw [dif_neg (by omega)] at hc
      simp at hc
  | succ n ih =>
      intro ci s hn c hc
      rw [yieldChunksAux] at hc
      by_cases hs : s < ps.length
      · rw [dif_pos hs] at hc
        dsimp only at hc
        by_cases he : (collectWindow ps s t m).2.2 ≥ ps.length
        · rw [if_pos he] at hc
          rcases List.mem_singleton.mp hc with hceq
          subst hceq
          exact ⟨s, hs, rfl, rfl, rfl⟩
        · rw [if_neg he] at hc
          rcases List.mem_cons.mp hc with hceq | hcrest
          · subst hceq
            exact ⟨s, hs, rfl, rfl, rfl⟩
          · have hb := collectWindow_bounds ps s t m hs
            have hgt := advanceStart_gt ps s (collectWindow ps s t m).2.2
              (collectWindow ps s t m).2.1 r (by omega)
            exact ih (ci + 1) _ (by omega) c hcrest
      · rw [dif_neg hs] at hc
        simp at hc

/-- C1 (amended: restricted to page sequences whose exploded paragraphs obey
the two-character chaining discipline, i.e. `Chained`; this holds whenever no
blank-text page lies between pages that contribute paragraphs, and fails
otherwise because a blank interior page advances the offset cursor by an
extra separator width — see the counterexample): every chunk emitted by the
chunker over the exploded pages has text equal to its window's paragraph
texts joined by the two-character separator `"\n\n"`, and
`end_char - start_char` equals that joined text's length. -/
theorem chunk_text_and_offsets (pages : List PageRec) (t m : Int) (r : ℚ)
    (hch : Chained (explodeParagraphs pages)) :
    ∀ c ∈ yieldChunks (explodeParagraphs pages) t m r,
      (∃ w : List Paragraph, w ≠ [] ∧
        (∃ a k, w = ((explodeParagraphs pages).drop a).take k) ∧
        c.text = joinParas (w.map Paragraph.text) ∧
        c.start_char = (w.headD defaultPara).start ∧
        c.end_char = (w.getLastD defaultPara).«end») ∧
      c.end_char - c.start_char = (c.text.length : Int) := by
  intro c hc
  obtain ⟨sc, hsc, htext, hstart, hend⟩ :=
    yieldChunksAux_mem_spec (explodeParagraphs pages) t m r
      (explodeParagraphs pages).length 0 0 (by omega) c hc
  obtain ⟨hslice, hne⟩ :=
    collectWindow_window_slice (explodeParagraphs pages) sc t m hsc
  have hpoint : ∀ p ∈ (collectWindow (explodeParagraphs pages) sc t m).1,
      p.«end» = p.start + (p.text.length : Int) := by
    intro p hp
    apply hch.1
    rw [hslice] at hp
    exact List.mem_of_mem_drop (List.mem_of_mem_take hp)
  have hchain : List.Chain' (fun a b => b.start = a.«end» + 2)
      (collectWindow (explodeParagraphs pages) sc t m).1 := by
    rw [hslice]
    exact (hch.2.drop sc).take _
  have hoff := window_offsets (collectWindow (explodeParagraphs pages) sc t m).1
    hne hpoint hchain
  refine ⟨⟨(collectWindow (explodeParagraphs pages) sc t m).1, hne,
    ⟨sc, _, hslice⟩, htext, hstart, hend⟩, ?_⟩
  rw [hstart, hend, htext, hoff, joinParas_length]

/-- Witness for `chunk_text_and_offsets` on two non-blank pages. -/
theorem chunk_text_and_offsets_witness :
    Chained (explodeParagraphs [⟨1, "Hello"⟩, ⟨2, "world"⟩]) ∧
    (∀ c ∈ yieldChunks (explodeParagraphs [⟨1, "Hello"⟩, ⟨2, "world"⟩]) 1400 1100 (3/20),
      (∃ w : List Paragraph, w ≠ [] ∧
        (∃ a k, w = ((explodeParagraphs [⟨1, "Hello"⟩, ⟨2, "world"⟩]).drop a).take k) ∧
        c.text = joinParas (w.map Paragraph.text) ∧
        c.start_char = (w.headD defaultPara).start ∧
        c.end_char = (w.getLastD defaultPara).«end») ∧
      c.end_char - c.start_char = (c.text.length : Int)) := by
  have hch : Chained (explodeParagraphs [⟨1, "Hello"⟩, ⟨2, "world"⟩]) := by
    constructor
    · decide
    · rw [show explodeParagraphs [⟨1, "Hello"⟩, ⟨2, "world"⟩] =
          [⟨1, "Hello", 0, 5⟩, ⟨2, "world", 7, 12⟩] from rfl]
      exact List.chain'_pair.mpr (by decide)
  exact ⟨hch, chunk_text_and_offsets [⟨1, "Hello"⟩, ⟨2, "world"⟩] 1400 1100 (3/20) hch⟩

/-- C1 counterexample: with a blank page between two non-blank pages the
cursor advances by two separator widths, so the single emitted chunk spans
offsets `[0, 6)` while its joined text `"a\n\nb"` has length 4:
`end_char - start_char` differs from the text length. -/
theorem chunk_offsets_counterexample :
    ∃ c ∈ yieldChunks (explodeParagraphs [⟨1, "a"⟩, ⟨2, ""⟩, ⟨3, "b"⟩]) 1400 1100 (3/20),
      c.end_char - c.start_char ≠ (c.text.length : Int) := by
  have hps : explodeParagraphs [⟨1, "a"⟩, ⟨2, ""⟩, ⟨3, "b"⟩] =
      [⟨1, "a", 0, 1⟩, ⟨3, "b", 5, 6⟩] := rfl
  have hchunks : yieldChunks (explodeParagraphs [⟨1, "a"⟩, ⟨2, ""⟩, ⟨3, "b"⟩]) 1400 1100 (3/20) =
      [⟨"sym-000000", "a\n\nb", 1, 3, 0, 6⟩] := by
    rw [hps, yieldChunks, yieldChunksAux, dif_pos (by norm_num)]
    rfl
  rw [hchunks]
  refine ⟨⟨"sym-000000", "a\n\nb", 1, 3, 0, 6⟩, by simp, by decide⟩

/-- Ghost instrumentation of `_yield_chunks`: the identical loop, recording
each emitted chunk's paragraph window `[start_idx, next_idx)` instead of the
chunk record. -/
def chunkWindowsAux (paragraphs : List Paragraph) (target min_chars : Int)
    (overlap_ratio : ℚ) (startIdx : Nat) : List (Nat × Nat) :=
  if h : startIdx < paragraphs.length then
    let r := collectWindow paragraphs startIdx target min_chars
    if r.2.2 ≥ paragraphs.length then [(startIdx, r.2.2)]
    else (startIdx, r.2.2) :: chunkWindowsAux paragraphs target min_chars overlap_ratio
      (advanceStart paragraphs startIdx r.2.2 r.2.1 overlap_ratio)
  else []
termination_by paragraphs.length - startIdx
decreasing_by
  have hb := collectWindow_bounds paragraphs startIdx target min_chars h
  have hgt := advanceStart_gt paragraphs startIdx
    (collectWindow paragraphs startIdx target min_chars).2.2
    (collectWindow paragraphs startIdx target min_chars).2.1 overlap_ratio (by omega)
  omega

def chunkWindows (paragraphs : List Paragraph) (target min_chars : Int)
    (overlap_ratio : ℚ) : List (Nat × Nat) :=
  chunkWindowsAux paragraphs target min_chars overlap_ratio 0

/-- The instrumentation emits exactly one window per emitted chunk. -/
theorem yieldChunks_length_eq_windows (ps : List Paragraph) (t m : Int) (r : ℚ) :
    ∀ (n ci s : Nat), ps.length - s ≤ n →
      (yieldChunksAux ps t m r ci s).length = (chunkWindowsAux ps t m r s).length := by
  intro n
  induction n with
  | zero =>
      intro ci s hn
      rw [yieldChunksAux, chunkWindowsAux, dif_neg (by omega), dif_neg (by omega)]
      rfl
  | succ n ih =>
      intro ci s hn
      rw [yieldChunksAux, chunkWindowsAux]
      by_cases hs : s < ps.length
      · rw [dif_pos hs, dif_pos hs]
        dsimp only
        have hb := collectWindow_bounds ps s t m hs
        by_cases he : (collectWindow ps s t m).2.2 ≥ ps.length
        · rw [if_pos he, if_pos he]
          rfl
        · rw [if_neg he, if_neg he]
          have hgt := advanceStart_gt ps s (collectWindow ps s t m).2.2
            (collectWindow ps s t m).2.1 r (by omega)
          simp only [List.length_cons]
          rw [ih (ci + 1) _ (by omega)]
      · rw [dif_neg hs, dif_neg hs]
        rfl

theorem chunkWindowsAux_spec (ps : List Paragraph) (t m : Int) (r : ℚ) :
    ∀ (n s : Nat), ps.length - s ≤ n → s < ps.length →
      (∃ e₀ rest, chunkWindowsAux ps t m r s = (s, e₀) :: rest) ∧
      List.Chain' (fun w₁ w₂ => w₂.1 ≤ w₁.2) (chunkWindowsAux ps t m r s) ∧
      ((chunkWindowsAux ps t m r s).getLastD (0, 0)).2 = ps.length ∧
      (∀ i, s ≤ i → i < ps.length →
        ∃ w ∈ chunkWindowsAux ps t m r s, w.1 ≤ i ∧ i < w.2) := by
  intro n
  induction n with
  | zero => intro s hn hs; omega
  | succ n ih =>
      intro s hn hs
      rw [chunkWindowsAux, dif_pos hs]
      dsimp only
      have hb := collectWindow_bounds ps s t m hs
      by_cases he : (collectWindow ps s t m).2.2 ≥ ps.length
      · rw [if_pos he]
        have hee : (collectWindow ps s t m).2.2 = ps.length := by omega
        refine ⟨⟨_, [], rfl⟩, by simp, by simp [hee], ?_⟩
        intro i hsi hilen
        refine ⟨(s, (collectWindow ps s t m).2.2), by simp, by simp [hsi], ?_⟩
        omega
      · rw [if_neg he]
        have hgt := advanceStart_gt ps s (collectWindow ps s t m).2.2
          (collectWindow ps s t m).2.1 r (by omega)
        have hle := advanceStart_le ps s (collectWindow ps s t m).2.2
          (collectWindow ps s t m).2.1 r (by omega)
        have hs'lt : advanceStart ps s (collectWindow ps s t m).2.2
            (collectWindow ps s t m).2.1 r < ps.length := by omega
        obtain ⟨hhead, hchain, hlast, hcover⟩ := ih
          (advanceStart ps s (collectWindow ps s t m).2.2 (collectWindow ps s t m).2.1 r)
          (by omega) hs'lt
        obtain ⟨e₀, rest, hrest⟩ := hhead
        refine ⟨⟨_, _, rfl⟩, ?_, ?_, ?_⟩
        · rw [hrest]
          refine List.chain'_cons.mpr ⟨by simpa using hle, ?_⟩
          rw [← hrest]
          exact hchain
        · rw [hrest] at hlast ⊢
          rw [List.getLastD_eq_getLast?, List.getLast?_cons_cons,
            ← List.getLastD_eq_getLast?]
          exact hlast
        · intro i hsi hilen
          by_cases hie : i < (collectWindow ps s t m).2.2
          · exact ⟨(s, (collectWindow ps s t m).2.2), by simp, hsi, hie⟩
          · obtain ⟨w, hw, hwi⟩ := hcover i (by omega) hilen
            exact ⟨w, by simp [hw], hwi⟩

/-- C10: the union of the emitted chunks' paragraph windows covers every
paragraph: the first window starts at index 0, each later window starts no
later than the previous window's exclusive end, the final window ends exactly
at the number of paragraphs, and hence every paragraph index lies inside some
emitted window.  `chunkWindows` is `_yield_chunks` instrumented to record
each chunk's `[start_idx, next_idx)` window (one window per chunk, by
`yieldChunks_length_eq_windows`). -/
theorem chunk_windows_cover (ps : List Paragraph) (t m : Int) (r : ℚ)
    (hne : ps ≠ []) :
    (∃ e₀ rest, chunkWindows ps t m r = (0, e₀) :: rest) ∧
    List.Chain' (fun w₁ w₂ => w₂.1 ≤ w₁.2) (chunkWindows ps t m r) ∧
    ((chunkWindows ps t m r).getLastD (0, 0)).2 = ps.length ∧
    (∀ i, i < ps.length → ∃ w ∈ chunkWindows ps t m r, w.1 ≤ i ∧ i < w.2) := by
  have hs : 0 < ps.length := List.length_pos.mpr hne
  obtain ⟨hhead, hchain, hlast, hcover⟩ :=
    chunkWindowsAux_spec ps t m r ps.length 0 (by omega) hs
  exact ⟨hhead, hchain, hlast, fun i hi => hcover i (Nat.zero_le i) hi⟩

/-- Witness for `chunk_windows_cover` on a two-paragraph sequence. -/
theorem chunk_windows_cover_witness :
    ([⟨1, "a", 0, 1⟩, ⟨1, "b", 3, 4⟩] : List Paragraph) ≠ [] ∧
    ((∃ e₀ rest, chunkWindows [⟨1, "a", 0, 1⟩, ⟨1, "b", 3, 4⟩] 10 1 (3/20) = (0, e₀) :: rest) ∧
      List.Chain' (fun w₁ w₂ => w₂.1 ≤ w₁.2)
        (chunkWindows [⟨1, "a", 0, 1⟩, ⟨1, "b", 3, 4⟩] 10 1 (3/20)) ∧
      ((chunkWindows [⟨1, "a", 0, 1⟩, ⟨1, "b", 3, 4⟩] 10 1 (3/20)).getLastD (0, 0)).2 =
        ([⟨1, "a", 0, 1⟩, ⟨1, "b", 3, 4⟩] : List Paragraph).length ∧
      (∀ i, i < ([⟨1, "a", 0, 1⟩, ⟨1, "b", 3, 4⟩] : List Paragraph).length →
        ∃ w ∈ chunkWindows [⟨1, "a", 0, 1⟩, ⟨1, "b", 3, 4⟩] 10 1 (3/20), w.1 ≤ i ∧ i < w.2)) :=
  ⟨by decide, chunk_windows_cover [⟨1, "a", 0, 1⟩, ⟨1, "b", 3, 4⟩] 10 1 (3/20) (by decide)⟩

theorem chunkLookup_id (data : List ChunkRecord) (id : String) (r : ChunkRecord)
    (h : chunkLookup data id = some r) : r.id = id := by
  have := List.find?_some h
  simpa using this

theorem orderedChunksFrom_ids (data : List ChunkRecord) :
    ∀ (ids : List String) (l : List ChunkRecord),
      orderedChunksFrom data ids = Except.ok l →
      l.map (fun r => r.id) = ids := by
  intro ids
  induction ids with
  | nil =>
      intro l hl
      simp only [orderedChunksFrom] at hl
      simp at hl
      simp [← hl]
  | cons id rest ih =>
      intro l hl
      simp only [orderedChunksFrom] at hl
      cases hlk : chunkLookup data id with
      | none => rw [hlk] at hl; simp at hl
      | some r =>
          rw [hlk] at hl
          cases ho : orderedChunksFrom data rest with
          | error e => rw [ho] at hl; simp at hl
          | ok l₀ =>
              rw [ho] at hl
              simp at hl
              rw [← hl]
              simp [ih l₀ ho, chunkLookup_id data id r hlk]

theorem length_le_of_nodup_subset {α : Type} [DecidableEq α] {l l' : List α}
    (hnd : l.Nodup) (hsub : ∀ a ∈ l, a ∈ l') : l.length ≤ l'.length := by
  calc l.length = l.toFinset.card := (List.toFinset_card_of_nodup hnd).symm
    _ ≤ l'.toFinset.card := Finset.card_le_card (fun a ha => by
        rw [List.mem_toFinset] at ha ⊢
        exact hsub a ha)
    _ ≤ l'.length := l'.toFinset_card_le

theorem ordered_get_id_ne (ordered : List ChunkRecord)
    (hord : (ordered.map (fun r => r.id)).Nodup)
    (i j : Nat) (hi : i < ordered.length) (hj : j < ordered.length) (hij : i ≠ j) :
    (ordered.get ⟨i, hi⟩).id ≠ (ordered.get ⟨j, hj⟩).id := by
  intro heq
  have hi' : i < (ordered.map (fun r => r.id)).length := by simpa using hi
  have hj' : j < (ordered.map (fun r => r.id)).length := by simpa using hj
  have heq' : (ordered.map (fun r => r.id)).get ⟨i, hi'⟩ =
      (ordered.map (fun r => r.id)).get ⟨j, hj'⟩ := by
    simpa using heq
  have := (List.Nodup.get_inj_iff hord).mp heq'
  simp only [Fin.mk.injEq] at this
  exact hij this

theorem map_fst_zip_sublist : ∀ (l1 : List Int) (l2 : List ℚ),
    ((l1.zip l2).map Prod.fst).Sublist l1
  | [], _ => by simp
  | _ :: _, [] => by simp
  | a :: l1, b :: l2 => by
      simp only [List.zip_cons_cons, List.map_cons]
      exact (map_fst_zip_sublist l1 l2).cons₂ a

theorem map_snd_zip_sublist : ∀ (l1 : List Int) (l2 : List ℚ),
    ((l1.zip l2).map Prod.snd).Sublist l2
  | [], _ => by simp
  | _ :: _, [] => by simp
  | a :: l1, b :: l2 => by
      simp only [List.zip_cons_cons, List.map_cons]
      exact (map_snd_zip_sublist l1 l2).cons₂ b

theorem makeCandidatesAux_mem (ordered : List ChunkRecord) :
    ∀ (pairs : List (Int × ℚ)) (rank : Nat) (c : Candidate),
      c ∈ makeCandidatesAux ordered rank pairs →
      ∃ idx score, (idx, score) ∈ pairs ∧ 0 ≤ idx ∧
        ∃ hlt : idx.toNat < ordered.length,
          c.score = score ∧ c.id = (ordered.get ⟨idx.toNat, hlt⟩).id := by
  intro pairs
  induction pairs with
  | nil => intro rank c hc; simp [makeCandidatesAux] at hc
  | cons p rest ih =>
      intro rank c hc
      obtain ⟨idx, score⟩ := p
      simp only [makeCandidatesAux] at hc
      split at hc
      · rename_i hcond
        rcases List.mem_cons.mp hc with hceq | hcr
        · subst hceq
          exact ⟨idx, score, by simp, hcond.1, hcond.2, rfl, rfl⟩
        · obtain ⟨i₂, s₂, hmem, h0, hlt, hsc, hid⟩ := ih (rank + 1) c hcr
          exact ⟨i₂, s₂, by simp [hmem], h0, hlt, hsc, hid⟩
      · obtain ⟨i₂, s₂, hmem, h0, hlt, hsc, hid⟩ := ih (rank + 1) c hc
        exact ⟨i₂, s₂, by simp [hmem], h0, hlt, hsc, hid⟩

theorem makeCandidatesAux_pairwise (ordered : List ChunkRecord)
    (R : ℚ → ℚ → Prop) :
    ∀ (pairs : List (Int × ℚ)) (rank : Nat),
      (pairs.map Prod.snd).Pairwise R →
      (makeCandidatesAux ordered rank pairs).Pairwise
        (fun a b => R a.score b.score) := by
  intro pairs
  induction pairs with
  | nil => intro rank _; simp [makeCandidatesAux]
  | cons p rest ih =>
      intro rank hpw
      obtain ⟨idx, score⟩ := p
      simp only [List.map_cons, List.pairwise_cons] at hpw
      simp only [makeCandidatesAux]
      split
      · refine List.pairwise_cons.mpr ⟨?_, ih (rank + 1) hpw.2⟩
        intro c hc
        obtain ⟨i₂, s₂, hmem, _, _, hsc, _⟩ :=
          makeCandidatesAux_mem ordered rest (rank + 1) c hc
        have hs₂ : s₂ ∈ rest.map Prod.snd := List.mem_map.mpr ⟨(i₂, s₂), hmem, rfl⟩
        have := hpw.1 s₂ hs₂
        simpa [hsc] using this
      · exact ih (rank + 1) hpw.2

theorem makeCandidatesAux_ids_nodup (ordered : List ChunkRecord)
    (hord : (ordered.map (fun r => r.id)).Nodup) :
    ∀ (pairs : List (Int × ℚ)) (rank : Nat),
      (pairs.map Prod.fst).Nodup →
      ((makeCandidatesAux ordered rank pairs).map (fun c => c.id)).Nodup := by
  intro pairs
  induction pairs with
  | nil => intro rank _; simp [makeCandidatesAux]
  | cons p rest ih =>
      intro rank hnd
      obtain ⟨idx, score⟩ := p
      simp only [List.map_cons, List.nodup_cons] at hnd
      simp only [makeCandidatesAux]
      split
      · rename_i hcond
        simp only [List.map_cons, List.nodup_cons]
        refine ⟨?_, ih (rank + 1) hnd.2⟩
        intro hmem
        obtain ⟨c, hc, hcid⟩ := List.mem_map.mp hmem
        obtain ⟨i₂, s₂, hmem₂, h0₂, hlt₂, _, hid₂⟩ :=
          makeCandidatesAux_mem ordered rest (rank + 1) c hc
        have hne : idx ≠ i₂ := by
          intro heq
          apply hnd.1
          rw [heq]
          exact List.mem_map.mpr ⟨(i₂, s₂), hmem₂, rfl⟩
        have htne : idx.toNat ≠ i₂.toNat := by
          intro hcon
          apply hne
          omega
        exact ordered_get_id_ne ordered hord idx.toNat i₂.toNat hcond.2 hlt₂ htne
          (by rw [← hid₂, hcid])
      · exact ih (rank + 1) hnd.2

theorem makeCandidatesAux_length_le (ordered : List ChunkRecord)
    (hord : (ordered.map (fun r => r.id)).Nodup)
    (pairs : List (Int × ℚ)) (rank : Nat)
    (hnd : (pairs.map Prod.fst).Nodup) :
    (makeCandidatesAux ordered rank pairs).length ≤ ordered.length := by
  have hd := makeCandidatesAux_ids_nodup ordered hord pairs rank hnd
  have hsub : ∀ a ∈ (makeCandidatesAux ordered rank pairs).map (fun c => c.id),
      a ∈ ordered.map (fun r => r.id) := by
    intro a ha
    obtain ⟨c, hc, rfl⟩ := List.mem_map.mp ha
    obtain ⟨i₂, s₂, _, _, hlt, _, hid⟩ := makeCandidatesAux_mem ordered pairs rank c hc
    rw [hid]
    exact List.mem_map.mpr ⟨_, List.get_mem _ _ _, rfl⟩
  have := length_le_of_nodup_subset hd hsub
  simpa using this

theorem reassignRanksAux_map_id : ∀ (rank : Nat) (cs : List Candidate),
    (reassignRanksAux rank cs).map (fun c => c.id) = cs.map (fun c => c.id)
  | _, [] => rfl
  | rank, c :: rest => by
      simp [reassignRanksAux, reassignRanksAux_map_id (rank + 1) rest]

theorem reassignRanksAux_map_score : ∀ (rank : Nat) (cs : List Candidate),
    (reassignRanksAux rank cs).map (fun c => c.score) = cs.map (fun c => c.score)
  | _, [] => rfl
  | rank, c :: rest => by
      simp [reassignRanksAux, reassignRanksAux_map_score (rank + 1) rest]

theorem reassignRanksAux_length : ∀ (rank : Nat) (cs : List Candidate),
    (reassignRanksAux rank cs).length = cs.length
  | _, [] => rfl
  | rank, c :: rest => by
      simp [reassignRanksAux, reassignRanksAux_length (rank + 1) rest]

theorem rerank_length_le (scorer : Option (String → String → ℚ)) (q : String)
    (cands : List Candidate) (k : Nat) :
    (rerank scorer q cands k).length ≤ k ∧
    (rerank scorer q cands k).length ≤ cands.length := by
  cases scorer with
  | none =>
      simp only [rerank, List.length_take]
      omega
  | some f =>
      simp only [rerank, List.length_take, List.length_mergeSort, List.length_map]
      omega

theorem rerank_ids_nodup (scorer : Option (String → String → ℚ)) (q : String)
    (cands : List Candidate) (k : Nat)
    (hnd : (cands.map (fun c => c.id)).Nodup) :
    ((rerank scorer q cands k).map (fun c => c.id)).Nodup := by
  cases scorer with
  | none =>
      exact List.Nodup.sublist ((List.take_sublist k cands).map (fun c => c.id)) hnd
  | some f =>
      simp only [rerank]
      have hscored : ((cands.map (fun entry : Candidate =>
          { entry with score := f ("query: " ++ q) ("passage: " ++ entry.text) })).map
            (fun c : Candidate => c.id)) = cands.map (fun c : Candidate => c.id) := by
        rw [List.map_map]
        rfl
      have hperm : List.Perm
          (((cands.map (fun entry : Candidate =>
            { entry with score := f ("query: " ++ q) ("passage: " ++ entry.text) })).mergeSort
              (fun a b => decide (b.score ≤ a.score))).map (fun c : Candidate => c.id))
          (cands.map (fun c : Candidate => c.id)) := by
        rw [← hscored]
        exact List.Perm.map _ (List.mergeSort_perm _ _)
      have hnd₂ := (List.Perm.nodup_iff hperm).mpr hnd
      exact List.Nodup.sublist
        (List.Sublist.map (fun c : Candidate => c.id) (List.take_sublist k _)) hnd₂

theorem rerank_pairwise (scorer : Option (String → String → ℚ)) (q : String)
    (cands : List Candidate) (k : Nat)
    (hpw : cands.Pairwise (fun a b => b.score ≤ a.score)) :
    (rerank scorer q cands k).Pairwise (fun a b => b.score ≤ a.score) := by
  cases scorer with
  | none => exact hpw.sublist (List.take_sublist k cands)
  | some f =>
      simp only [rerank]
      have hsorted := @List.sorted_mergeSort Candidate
        (fun a b : Candidate => decide (b.score ≤ a.score))
        (fun a b c hab hbc => by
          simp only [decide_eq_true_eq] at hab hbc ⊢
          exact le_trans hbc hab)
        (fun a b => by
          simp only [Bool.or_eq_true, decide_eq_true_eq]
          exact le_total b.score a.score)
        (cands.map (fun entry =>
          { entry with score := f ("query: " ++ q) ("passage: " ++ entry.text) }))
      have hpw₂ := hsorted.imp (fun h => of_decide_eq_true h)
      exact hpw₂.sublist (List.take_sublist k _)

theorem pairwise_score_of_map {R : ℚ → ℚ → Prop} {xs ys : List Candidate}
    (hmap : xs.map (fun c => c.score) = ys.map (fun c => c.score))
    (h : ys.Pairwise (fun a b => R a.score b.score)) :
    xs.Pairwise (fun a b => R a.score b.score) := by
  have h₂ : (ys.map (fun c : Candidate => c.score)).Pairwise R := List.pairwise_map.mpr h
  rw [← hmap] at h₂
  exact List.pairwise_map.mp h₂

/-- C2: for every query, positive `top_k` and rerank flag, under the artifact
invariant that the persisted id list has no duplicate ids and the spec's
black-box contract for the nearest-neighbor index (each hit list carries
distinct row indices and scores in descending order), every successful
`search` call returns a list of length at most `top_k` and at most the number
of indexed chunks, with no two elements sharing an id, ordered with the
highest score first.  Each element has type `SearchResult`, which carries
exactly the fields id, score, page_start, page_end, start_char, end_char and
preview: the internal `text` and `rank` fields are stripped by
`cleanCandidate` before returning. -/
theorem search_result_contract (store : ArtifactStore)
    (scorer : Option (String → String → ℚ)) (query : String) (top_k : Int)
    (rerank_flag : Bool) (l : List SearchResult)
    (hids : store.ids.Nodup)
    (hnn : ∀ (v : List ℚ) (k : Nat), (store.index.nnsearch v k).2.Nodup ∧
      (store.index.nnsearch v k).1.Pairwise (fun a b => b ≤ a))
    (hres : search store scorer query top_k rerank_flag = Except.ok l) :
    l.length ≤ top_k.toNat ∧ l.length ≤ store.ids.length ∧
    (l.map (fun res => res.id)).Nodup ∧
    l.Pairwise (fun a b => b.score ≤ a.score) := by
  by_cases hk : top_k ≤ 0
  · simp [search, hk] at hres
  by_cases hr : isReady store = true
  case neg =>
    have hf : isReady store = false := by
      cases hb : isReady store
      · rfl
      · exact absurd hb hr
    simp [search, hk, hf] at hres
  simp only [search] at hres
  rw [if_neg hk, if_neg (by simp [hr])] at hres
  split at hres
  · simp only [Except.ok.injEq] at hres
    subst hres
    simp
  · cases ho : orderedChunks store with
    | error e => rw [ho] at hres; simp at hres
    | ok ordered =>
        rw [ho] at hres
        dsimp only at hres
        split at hres
        · simp only [Except.ok.injEq] at hres
          subst hres
          simp
        · simp only [Except.ok.injEq] at hres
          subst hres
          simp only [makeCandidates]
          have ho' : orderedChunksFrom store.chunkData store.ids = Except.ok ordered := ho
          have hordids : ordered.map (fun r => r.id) = store.ids :=
            orderedChunksFrom_ids store.chunkData store.ids ordered ho'
          have hord : (ordered.map (fun r => r.id)).Nodup := by
            rw [hordids]
            exact hids
          have hordlen : ordered.length = store.ids.length := by
            rw [← hordids, List.length_map]
          have hfst : ((((store.index.nnsearch (encodeQuery store query)
              (min (max top_k.toNat DEFAULT_CANDIDATES) store.index.ntotal)).2).zip
              ((store.index.nnsearch (encodeQuery store query)
              (min (max top_k.toNat DEFAULT_CANDIDATES) store.index.ntotal)).1)).map
                Prod.fst).Nodup :=
            List.Nodup.sublist (map_fst_zip_sublist _ _) (hnn _ _).1
          have hsnd : ((((store.index.nnsearch (encodeQuery store query)
              (min (max top_k.toNat DEFAULT_CANDIDATES) store.index.ntotal)).2).zip
              ((store.index.nnsearch (encodeQuery store query)
              (min (max top_k.toNat DEFAULT_CANDIDATES) store.index.ntotal)).1)).map
                Prod.snd).Pairwise (fun a b => b ≤ a) :=
            ((hnn _ _).2).sublist (map_snd_zip_sublist _ _)
          have hcnodup := makeCandidatesAux_ids_nodup ordered hord _ 0 hfst
          have hcpw := makeCandidatesAux_pairwise ordered (fun a b => b ≤ a) _ 0 hsnd
          have hclen := makeCandidatesAux_length_le ordered hord _ 0 hfst
          cases rerank_flag with
          | false =>
              rw [if_neg (by simp)]
              refine ⟨?_, ?_, ?_, ?_⟩
              · rw [List.length_map, reassignRanksAux_length, List.length_take]
                omega
              · rw [List.length_map, reassignRanksAux_length, List.length_take]
                omega
              · rw [List.map_map]
                show ((reassignRanksAux 0 _).map (fun c : Candidate => c.id)).Nodup
                rw [reassignRanksAux_map_id]
                exact List.Nodup.sublist
                  (List.Sublist.map (fun c : Candidate => c.id)
                    (List.take_sublist top_k.toNat _)) hcnodup
              · apply List.pairwise_map.mpr
                exact @pairwise_score_of_map (fun a b => b ≤ a) _ _
                  (reassignRanksAux_map_score 0 _)
                  (hcpw.sublist (List.take_sublist top_k.toNat _))
          | true =>
              rw [if_pos rfl]
              have hrlen := rerank_length_le scorer query
                (makeCandidatesAux ordered 0
                  ((store.index.nnsearch (encodeQuery store query)
                    (min (max top_k.toNat DEFAULT_CANDIDATES) store.index.ntotal)).2.zip
                  (store.index.nnsearch (encodeQuery store query)
                    (min (max top_k.toNat DEFAULT_CANDIDATES) store.index.ntotal)).1))
                top_k.toNat
              refine ⟨?_, ?_, ?_, ?_⟩
              · rw [List.length_map, reassignRanksAux_length]
                exact hrlen.1
              · rw [List.length_map, reassignRanksAux_length]
                omega
              · rw [List.map_map]
                show ((reassignRanksAux 0 _).map (fun c : Candidate => c.id)).Nodup
                rw [reassignRanksAux_map_id]
                exact rerank_ids_nodup scorer query _ top_k.toNat hcnodup
              · apply List.pairwise_map.mpr
                exact @pairwise_score_of_map (fun a b => b ≤ a) _ _
                  (reassignRanksAux_map_score 0 _)
                  (rerank_pairwise scorer query _ top_k.toNat hcpw)

/-- A concrete two-chunk store for the C2 witness. -/
def contractStore : ArtifactStore :=
  ⟨true, true, true,
   [⟨"c0", "alpha", 1, 1, 0, 5⟩, ⟨"c1", "beta", 2, 2, 7, 11⟩],
   ["c0", "c1"],
   ⟨2, fun _ _ => ([1, 0], [0, 1])⟩,
   fun _ => []⟩

/-- Witness for `search_result_contract` on `contractStore`. -/
theorem search_result_contract_witness :
    contractStore.ids.Nodup ∧
    (∀ (v : List ℚ) (k : Nat), (contractStore.index.nnsearch v k).2.Nodup ∧
      (contractStore.index.nnsearch v k).1.Pairwise (fun a b => b ≤ a)) ∧
    search contractStore none "q" 2 false =
      Except.ok [⟨"c0", 1, 1, 1, 0, 5, "alpha"⟩, ⟨"c1", 0, 2, 2, 7, 11, "beta"⟩] ∧
    (([⟨"c0", 1, 1, 1, 0, 5, "alpha"⟩, ⟨"c1", 0, 2, 2, 7, 11, "beta"⟩] :
        List SearchResult).length ≤ (2 : Int).toNat ∧
      ([⟨"c0", 1, 1, 1, 0, 5, "alpha"⟩, ⟨"c1", 0, 2, 2, 7, 11, "beta"⟩] :
        List SearchResult).length ≤ contractStore.ids.length ∧
      (([⟨"c0", 1, 1, 1, 0, 5, "alpha"⟩, ⟨"c1", 0, 2, 2, 7, 11, "beta"⟩] :
        List SearchResult).map (fun res => res.id)).Nodup ∧
      ([⟨"c0", 1, 1, 1, 0, 5, "alpha"⟩, ⟨"c1", 0, 2, 2, 7, 11, "beta"⟩] :
        List SearchResult).Pairwise (fun a b => b.score ≤ a.score)) :=
  ⟨by decide,
   fun v k => ⟨show ([0, 1] : List Int).Nodup by decide,
     show ([1, 0] : List ℚ).Pairwise (fun a b => b ≤ a) by decide⟩,
   rfl,
   search_result_contract contractStore none "q" 2 false
     [⟨"c0", 1, 1, 1, 0, 5, "alpha"⟩, ⟨"c1", 0, 2, 2, 7, 11, "beta"⟩]
     (by decide)
     (fun v k => ⟨show ([0, 1] : List Int).Nodup by decide,
       show ([1, 0] : List ℚ).Pairwise (fun a b => b ≤ a) by decide⟩) rfl⟩

end Ragnarok
